import Mathlib

/-!
Verification of the `tunik` fuzzy-list widget (`src/fuzzy_list/mod.rs`).

The development is a shallow embedding of the Rust source:
* styled text (`tui::text`: `Span`, `Spans`, `Text`) is modelled with
  `List Char` contents and a small `Style` record (the external `tui`
  crate's style record, reduced to the fields the widget touches);
* the external fuzzy-matcher capability (`fuzzy_matcher::FuzzyMatcher`,
  method `fuzzy_indices`) is an opaque function parameter returning an
  optional score and list of match indices;
* Rust `usize` arithmetic is `Nat`; the one place where wrap-around
  matters (`content.len() - filter.len()` in `FuzzyListItem::matches`)
  uses an explicit wrapping subtraction modulo 2^64;
* fallible operations (out-of-bounds slicing / indexing, `unwrap` on an
  empty vector — all of which panic in Rust) return `Option`, with
  `none` standing for a panic.
-/

/-- The subset of `tui::style::Color` used by the widget. -/
inductive TuiColor : Type where
  | Red : TuiColor
  | Blue : TuiColor
  | Yellow : TuiColor
  | White : TuiColor
  deriving DecidableEq

/-- `tui::style::Style` reduced to foreground/background; `Style::default()`
has every field unset. -/
structure TuiStyle : Type where
  fg : Option TuiColor
  bg : Option TuiColor
  deriving DecidableEq

/-- `Style::default()`. -/
def TuiStyle.mkDefault : TuiStyle := ⟨none, none⟩

/-- `Style::default().fg(Color::Red)` — the default `filter_style` set in
`FuzzyListItem::new`. -/
def TuiStyle.redFg : TuiStyle := ⟨some TuiColor.Red, none⟩

/-- `tui::text::Span`: a run of text with one style. -/
structure TuiSpan : Type where
  content : List Char
  style : TuiStyle
  deriving DecidableEq

/-- `Span::raw`: content with the default style. -/
def TuiSpan.raw (s : List Char) : TuiSpan := ⟨s, TuiStyle.mkDefault⟩

/-- `Span::styled`. -/
def TuiSpan.styled (s : List Char) (st : TuiStyle) : TuiSpan := ⟨s, st⟩

/-- `FuzzyListItem` (src/fuzzy_list/mod.rs lines 115-120): `content` is the
`tui::text::Text`, i.e. a list of lines, each line a list of spans. -/
structure FuzzyListItem : Type where
  content : List (List TuiSpan)
  style : TuiStyle
  filter_style : TuiStyle
  deriving DecidableEq

/-- `FuzzyListItem::height` = `Text::height` = number of lines. -/
def FuzzyListItem.height (it : FuzzyListItem) : Nat := it.content.length

/-- The opaque matcher capability: `fuzzy_indices(haystack, needle)` returns
an optional `(score, indices)` pair (`Option<(i64, Vec<usize>)>`). -/
def Matcher : Type := List Char → List Char → Option (Int × List Nat)

/-- 2^64, the modulus of Rust `usize` arithmetic on a 64-bit target. -/
def USIZE : Nat := 18446744073709551616

/-- Wrapping `usize` subtraction (release-mode Rust semantics of
`content.len() - filter.len()` for operands below 2^64). -/
def wsub (a b : Nat) : Nat := if b ≤ a then a - b else (a + USIZE) - b

/-- Rust string slicing `&s[a..b]`: panics (`none`) unless `a ≤ b ≤ s.len()`.
Contents are modelled as char lists, so char-boundary panics are out of
scope; index arithmetic is the subject here. -/
def strSlice (s : List Char) (a b : Nat) : Option (List Char) :=
  if a ≤ b ∧ b ≤ s.length then some ((s.drop a).take (b - a)) else none

/-- The per-span body of `FuzzyListItem::matches` (lines 155-193): run the
matcher on the span's content; on a match take the FIRST reported index
(`indices.1.first().unwrap()` — `none` if the index list is empty) and split
the content into styled pieces around a query-length run; on no match emit
`Span::raw(content)`.  Returns the replacement spans and whether this span
matched; `none` models a panic. -/
def rewriteSpan (m : Matcher) (fstyle : TuiStyle) (filter : List Char)
    (sp : TuiSpan) : Option (List TuiSpan × Bool) :=
  let content := sp.content
  match m content filter with
  | some (_score, indices) =>
    match indices.head? with
    | none => none
    | some index =>
      if index > 0 ∧ index < wsub content.length filter.length then
        match strSlice content 0 index,
              strSlice content index (index + filter.length),
              strSlice content (index + filter.length) content.length with
        | some a, some b, some c =>
          some ([TuiSpan.raw a, TuiSpan.styled b fstyle, TuiSpan.raw c], true)
        | _, _, _ => none
      else if index = 0 then
        match strSlice content 0 filter.length,
              strSlice content filter.length content.length with
        | some b, some c =>
          some ([TuiSpan.styled b fstyle, TuiSpan.raw c], true)
        | _, _ => none
      else
        match strSlice content 0 (wsub content.length filter.length),
              strSlice content (wsub content.length filter.length) content.length with
        | some a, some b =>
          some ([TuiSpan.raw a, TuiSpan.styled b fstyle], true)
        | _, _ => none
  | none => some ([TuiSpan.raw content], false)

/-- `flat_map` of `rewriteSpan` over one line's spans, accumulating the
`matches` flag (a panic anywhere aborts the whole rewrite). -/
def rewriteSpansList (m : Matcher) (fstyle : TuiStyle) (filter : List Char) :
    List TuiSpan → Option (List TuiSpan × Bool)
  | [] => some ([], false)
  | sp :: rest =>
    match rewriteSpan m fstyle filter sp with
    | none => none
    | some (out, b) =>
      match rewriteSpansList m fstyle filter rest with
      | none => none
      | some (outs, bs) => some (out ++ outs, b || bs)

/-- The `for_each` over `self.content.lines` in `FuzzyListItem::matches`. -/
def rewriteLines (m : Matcher) (fstyle : TuiStyle) (filter : List Char) :
    List (List TuiSpan) → Option (List (List TuiSpan) × Bool)
  | [] => some ([], false)
  | l :: ls =>
    match rewriteSpansList m fstyle filter l with
    | none => none
    | some (l2, b) =>
      match rewriteLines m fstyle filter ls with
      | none => none
      | some (ls2, bs) => some (l2 :: ls2, b || bs)

/-- `FuzzyListItem::matches` (lines 148-198): rewrite every line in place,
return the item after the rewrite together with the match flag. -/
def FuzzyListItem.matchesFn (m : Matcher) (filter : List Char)
    (it : FuzzyListItem) : Option (FuzzyListItem × Bool) :=
  match rewriteLines m it.filter_style filter it.content with
  | none => none
  | some (ls, b) => some ({ it with content := ls }, b)

/-- The filtering scan of `set_filter` (lines 86-98): clone each item, run
`matches` on the clone, keep the rewritten clone if it matched. -/
def filterItems (m : Matcher) (filter : List Char) :
    List FuzzyListItem → Option (List FuzzyListItem)
  | [] => some []
  | it :: rest =>
    match FuzzyListItem.matchesFn m filter it with
    | none => none
    | some (it2, b) =>
      match filterItems m filter rest with
      | none => none
      | some r => some (if b then it2 :: r else r)

/-- `FuzzyListState` (lines 14-23).  The `matcher` field (an `Rc<dyn
FuzzyMatcher>` capability) is passed explicitly to the operations that use
it instead of being stored, so that states stay decidably comparable. -/
structure FuzzyListState : Type where
  offset : Nat
  selected : Option Nat
  filter : Option (List Char)
  items : List FuzzyListItem
  filtered : List FuzzyListItem
  deriving DecidableEq

/-- `FuzzyListState::with_items` (lines 39-48). -/
def withItems (items : List FuzzyListItem) : FuzzyListState :=
  ⟨0, none, none, items, []⟩

/-- `FuzzyListState::select` (lines 54-59): set the selection; clearing it
also resets the offset to 0. -/
def select (s : FuzzyListState) (index : Option Nat) : FuzzyListState :=
  { s with selected := index, offset := if index.isNone then 0 else s.offset }

/-- `FuzzyListState::increment_selected` (lines 61-63):
`self.select(self.selected.map(|v| v + 1).or(Some(0)))`. -/
def incrementSelected (s : FuzzyListState) : FuzzyListState :=
  select s (match s.selected with
            | some v => some (v + 1)
            | none => some 0)

/-- `FuzzyListState::decrement_selected` (lines 65-67):
`self.select(self.selected.map(|v| if v > 0 { v - 1 } else { v }))`. -/
def decrementSelected (s : FuzzyListState) : FuzzyListState :=
  select s (s.selected.map (fun v => if v > 0 then v - 1 else v))

/-- `FuzzyListState::get_filter` (lines 69-71). -/
def getFilter (s : FuzzyListState) : Option (List Char) := s.filter

/-- `filter.filter(|f| !f.is_empty())` (line 74): an empty query is
normalized to `None`. -/
def normFilter (f : Option (List Char)) : Option (List Char) :=
  f.bind (fun x => if x.isEmpty then none else some x)

/-- The `should_filter` value of the transition table in `set_filter`
(lines 75-84), as a function of the (already normalized) new filter and the
old one. -/
def shouldFilterB (f old : Option (List Char)) : Bool :=
  match f, old with
  | none, some _ => false
  | some _, none => true
  | some x, some y => x ≠ y
  | none, none => false

/-- `FuzzyListState::set_filter` (lines 73-104).  The `(None, Some)` arm of
the transition table clears `filtered` as a side effect; a recomputation
rebuilds `filtered` from the full `items`, sets `selected` to `None` (by
direct field assignment — NOT via `select`, so `offset` is untouched), and
both paths finally store the normalized filter.  `none` models a panic
inside the matcher rewrite. -/
def setFilter (m : Matcher) (s : FuzzyListState) (f0 : Option (List Char)) :
    Option FuzzyListState :=
  let f := normFilter f0
  let cleared : List FuzzyListItem :=
    match f, s.filter with
    | none, some _ => []
    | _, _ => s.filtered
  if shouldFilterB f s.filter then
    match f with
    | none => none
    | some q =>
      match filterItems m q s.items with
      | none => none
      | some newFiltered =>
        some { s with filtered := newFiltered, selected := none, filter := f }
  else
    some { s with filtered := cleared, filter := f }

/-- `FuzzyListState::get_items` (lines 106-112): the filtered view when it
is non-empty, the full collection otherwise. -/
def getItems (s : FuzzyListState) : List FuzzyListItem :=
  if s.filtered.isEmpty then s.items else s.filtered

/-- The initial window-growth loop of `get_items_bounds` (lines 283-289):
walk the items from `offset` accumulating heights, stopping just before the
budget would be exceeded.  Called on `heights.drop e`; returns the final
`end` and accumulated `height`. -/
def grow (maxh : Nat) : List Nat → Nat → Nat → Nat × Nat
  | [], e, h => (e, h)
  | x :: rest, e, h =>
    if h + x > maxh then (e, h) else grow maxh rest (e + 1) (h + x)

/-- The inner shrink loop of the "selection below window" case (lines
296-299): `while height > max_height { height -= items[start].height();
start += 1 }`.  The extra `Nat` argument is the loop's termination measure
`heights.length - start`, kept explicit so the definition is structurally
recursive; when it runs out with the guard still true, `start` has reached
`heights.length` and Rust would panic on `items[start]` (`none`). -/
def shrinkFrontAux (hs : List Nat) (maxh : Nat) :
    Nat → Nat → Nat → Option (Nat × Nat)
  | 0, st, h => if h ≤ maxh then some (st, h) else none
  | k + 1, st, h =>
    if h ≤ maxh then some (st, h)
    else shrinkFrontAux hs maxh k (st + 1) (h - hs.getD st 0)

def shrinkFront (hs : List Nat) (maxh st h : Nat) : Option (Nat × Nat) :=
  shrinkFrontAux hs maxh (hs.length - st) st h

/-- The inner shrink loop of the "selection above window" case (lines
304-307): `while height > max_height { end -= 1; height -=
items[end].height() }`.  Structural recursion on `end`; `end = 0` with the
guard still true is the Rust `usize` underflow panic, and `end - 1 ≥ len`
the index panic (`none`). -/
def shrinkBack (hs : List Nat) (maxh : Nat) : Nat → Nat → Option (Nat × Nat)
  | 0, h => if h ≤ maxh then some (0, h) else none
  | e + 1, h =>
    if h ≤ maxh then some (e + 1, h)
    else if e < hs.length then shrinkBack hs maxh e (h - hs.getD e 0)
    else none

/-- The outer loop `while selected >= end` (lines 293-300): append
`items[end]`, then shrink from the front until the budget fits again.  The
extra `Nat` argument is the termination measure `selected + 1 - end` (the
loop stops as soon as `end` passes `selected`); `end ≥ len` with the guard
still true is the Rust index panic (`none`). -/
def extendDownAux (hs : List Nat) (maxh sel : Nat) :
    Nat → Nat → Nat → Nat → Option (Nat × Nat × Nat)
  | 0, st, en, h => if sel < en then some (st, en, h) else none
  | k + 1, st, en, h =>
    if sel < en then some (st, en, h)
    else
      if en < hs.length then
        match shrinkFront hs maxh st (h + hs.getD en 0) with
        | none => none
        | some (st2, h2) => extendDownAux hs maxh sel k st2 (en + 1) h2
      else none

def extendDown (hs : List Nat) (maxh sel st en h : Nat) :
    Option (Nat × Nat × Nat) :=
  extendDownAux hs maxh sel (sel + 1 - en) st en h

/-- The outer loop `while selected < start` (lines 301-308): prepend
`items[start - 1]`, then shrink from the back.  Structural recursion on
`start` (it strictly decreases and the guard forces `start > 0`). -/
def extendUp (hs : List Nat) (maxh sel : Nat) :
    Nat → Nat → Nat → Option (Nat × Nat)
  | 0, en, _h => some (0, en)
  | st + 1, en, h =>
    if sel < st + 1 then
      if st < hs.length then
        match shrinkBack hs maxh en (h + hs.getD st 0) with
        | none => none
        | some (en2, h2) => extendUp hs maxh sel st en2 h2
      else none
    else some (st + 1, en)

/-- `FuzzyList::get_items_bounds` (lines 273-310) over the list of item
heights.  An empty list panics in Rust (`self.items.len() - 1` underflows
and `self.items[end]` goes out of bounds), hence `none`. -/
def getItemsBoundsH (hs : List Nat) (selected : Option Nat)
    (offset maxh : Nat) : Option (Nat × Nat) :=
  if hs.length = 0 then none
  else
    let off := min offset (hs.length - 1)
    let g := grow maxh (hs.drop off) off 0
    let sel := min (selected.getD 0) (hs.length - 1)
    match extendDown hs maxh sel off g.1 g.2 with
    | none => none
    | some (st1, en1, h1) => extendUp hs maxh sel st1 en1 h1

/-- `get_items_bounds` on the widget's items (the loop reads nothing but
`item.height()`). -/
def getItemsBounds (items : List FuzzyListItem) (selected : Option Nat)
    (offset maxh : Nat) : Option (Nat × Nat) :=
  getItemsBoundsH (items.map FuzzyListItem.height) selected offset maxh

/-- The state mutation of `StatefulWidget::render` (lines 331-338): with a
non-empty item list, compute the bounds for the viewport height and store
the returned `start` as the new offset (`state.offset = start`).  The item
list rendered is `state.get_items()` (see `examples/fuzzy.rs`). -/
def applyRender (s : FuzzyListState) (max_height : Nat) :
    Option FuzzyListState :=
  let its := getItems s
  if its.isEmpty then some s
  else
    match getItemsBounds its s.selected s.offset max_height with
    | none => none
    | some (st, _en) => some { s with offset := st }

/-! ### Ghost bookkeeping for the windowing proofs

`wsum hs a b` is the total height of the window `[a, b)`; the loops of
`get_items_bounds` maintain `height = wsum hs start end`. -/

def wsum (hs : List Nat) (a b : Nat) : Nat := ∑ i in Finset.Ico a b, hs.getD i 0

/-- The cursor invariant stated by the specification's data model:
`selected = None ⇒ offset = 0`. -/
def selectionInvariant (s : FuzzyListState) : Prop :=
  s.selected = none → s.offset = 0

instance (s : FuzzyListState) : Decidable (selectionInvariant s) := by
  unfold selectionInvariant
  infer_instance

/-- A concrete one-line item (used by concrete instantiations). -/
def demoItem : FuzzyListItem :=
  ⟨[[TuiSpan.raw ['a']]], TuiStyle.mkDefault, TuiStyle.redFg⟩

/-- One step of the navigation scenario of the spec's "monotonic offset"
property: `increment_selected()` (on a `Some` selection this is
`selected + 1`) followed by a window computation that stores the returned
`start` as the new offset, exactly as `render` does. -/
def incStep (hs : List Nat) (maxh : Nat) (p : Nat × Nat) : Option (Nat × Nat) :=
  match getItemsBoundsH hs (some (p.1 + 1)) p.2 maxh with
  | some (st, _en) => some (p.1 + 1, st)
  | none => none

/-- Iterated `incStep` from a `(selected, offset)` pair. -/
def incIter (hs : List Nat) (maxh : Nat) (p : Nat × Nat) : Nat → Option (Nat × Nat)
  | 0 => some p
  | k + 1 =>
    match incIter hs maxh p k with
    | none => none
    | some q => incStep hs maxh q

theorem wsum_of_le {hs : List Nat} {a b : Nat} (h : b ≤ a) : wsum hs a b = 0 := by
  unfold wsum
  rw [Finset.Ico_eq_empty (by omega)]
  simp

theorem wsum_succ_top {hs : List Nat} {a b : Nat} (h : a ≤ b) :
    wsum hs a (b + 1) = wsum hs a b + hs.getD b 0 :=
  Finset.sum_Ico_succ_top h _

theorem wsum_succ_bot {hs : List Nat} {a b : Nat} (h : a < b) :
    wsum hs a b = hs.getD a 0 + wsum hs (a + 1) b :=
  Finset.sum_eq_sum_Ico_succ_bot h _

theorem wsum_pos {hs : List Nat} {a b : Nat} (h : 0 < wsum hs a b) :
    a < b ∧ a < hs.length := by
  constructor
  · by_contra hc
    rw [wsum_of_le (by omega)] at h
    omega
  · by_contra hc
    have : wsum hs a b = 0 := by
      apply Finset.sum_eq_zero
      intro i hi
      rw [Finset.mem_Ico] at hi
      apply List.getD_eq_default
      omega
    omega

theorem getD_mem_aux : ∀ (hs : List Nat) (i : Nat), i < hs.length → hs.getD i 0 ∈ hs
  | x :: xs, 0, _ => List.mem_cons_self x xs
  | x :: xs, i + 1, h =>
    List.mem_cons_of_mem x (getD_mem_aux xs i (by simpa using h))

theorem getD_le_of_all {hs : List Nat} {maxh : Nat} (hall : ∀ x ∈ hs, x ≤ maxh)
    (i : Nat) : hs.getD i 0 ≤ maxh := by
  by_cases hi : i < hs.length
  · exact hall _ (getD_mem_aux hs i hi)
  · rw [List.getD_eq_default _ _ (by omega)]
    omega

theorem drop_eq_getD_cons : ∀ (hs : List Nat) (e : Nat), e < hs.length →
    hs.drop e = hs.getD e 0 :: hs.drop (e + 1)
  | _ :: _, 0, _ => rfl
  | x :: xs, e + 1, h => by
    have := drop_eq_getD_cons xs e (by simpa using h)
    simpa using this

theorem grow_spec (maxh : Nat) (hs : List Nat) :
    ∀ (k e h : Nat), hs.length - e ≤ k → e ≤ hs.length → h ≤ maxh →
    e ≤ (grow maxh (hs.drop e) e h).1 ∧ (grow maxh (hs.drop e) e h).1 ≤ hs.length ∧
    (grow maxh (hs.drop e) e h).2 = h + wsum hs e (grow maxh (hs.drop e) e h).1 ∧
    (grow maxh (hs.drop e) e h).2 ≤ maxh := by
  intro k
  induction k with
  | zero =>
    intro e h hk he hh
    have h1 : e = hs.length := by omega
    have h2 : hs.drop e = [] := by
      apply List.drop_eq_nil_of_le
      omega
    rw [h2]
    simp only [grow]
    refine ⟨le_refl e, by omega, ?_, hh⟩
    simp [wsum_of_le (le_refl e)]
  | succ k ih =>
    intro e h hk he hh
    by_cases hlt : e < hs.length
    · rw [drop_eq_getD_cons hs e hlt]
      simp only [grow]
      by_cases hcond : h + hs.getD e 0 > maxh
      · rw [if_pos hcond]
        refine ⟨le_refl e, by omega, ?_, hh⟩
        simp [wsum_of_le (le_refl e)]
      · rw [if_neg hcond]
        have := ih (e + 1) (h + hs.getD e 0) (by omega) (by omega) (by omega)
        obtain ⟨i1, i2, i3, i4⟩ := this
        refine ⟨by omega, i2, ?_, i4⟩
        rw [i3]
        have hlt2 : e < (grow maxh (hs.drop (e + 1)) (e + 1) (h + hs.getD e 0)).1 := by
          omega
        rw [wsum_succ_bot hlt2]
        omega
    · have h2 : hs.drop e = [] := by
        apply List.drop_eq_nil_of_le
        omega
      rw [h2]
      simp only [grow]
      refine ⟨le_refl e, by omega, ?_, hh⟩
      simp [wsum_of_le (le_refl e)]

theorem shrinkFrontAux_spec (hs : List Nat) (maxh en : Nat) :
    ∀ (k st h : Nat), hs.length ≤ st + k → st ≤ en → en ≤ hs.length →
    h = wsum hs st en →
    ∃ st2 h2, shrinkFrontAux hs maxh k st h = some (st2, h2) ∧
      st ≤ st2 ∧ st2 ≤ en ∧ h2 = wsum hs st2 en ∧ h2 ≤ maxh := by
  intro k
  induction k with
  | zero =>
    intro st h hk hse hen hsum
    by_cases hcond : h ≤ maxh
    · exact ⟨st, h, by simp [shrinkFrontAux, hcond], le_refl st, hse, hsum, hcond⟩
    · exfalso
      have hpos : 0 < wsum hs st en := by omega
      have := wsum_pos hpos
      omega
  | succ k ih =>
    intro st h hk hse hen hsum
    by_cases hcond : h ≤ maxh
    · exact ⟨st, h, by simp [shrinkFrontAux, hcond], le_refl st, hse, hsum, hcond⟩
    · have hpos : 0 < wsum hs st en := by omega
      have hlt := wsum_pos hpos
      have hsum2 : h - hs.getD st 0 = wsum hs (st + 1) en := by
        rw [hsum, wsum_succ_bot hlt.1]
        omega
      obtain ⟨st2, h2, heq, i1, i2, i3, i4⟩ :=
        ih (st + 1) (h - hs.getD st 0) (by omega) (by omega) hen hsum2
      refine ⟨st2, h2, ?_, by omega, i2, i3, i4⟩
      simp only [shrinkFrontAux, if_neg hcond]
      exact heq

theorem shrinkFront_spec (hs : List Nat) (maxh en st h : Nat)
    (hse : st ≤ en) (hen : en ≤ hs.length) (hsum : h = wsum hs st en) :
    ∃ st2 h2, shrinkFront hs maxh st h = some (st2, h2) ∧
      st ≤ st2 ∧ st2 ≤ en ∧ h2 = wsum hs st2 en ∧ h2 ≤ maxh :=
  shrinkFrontAux_spec hs maxh en (hs.length - st) st h (by omega) hse hen hsum

theorem shrinkBack_spec (hs : List Nat) (maxh a : Nat) :
    ∀ (en h : Nat), a ≤ en → en ≤ hs.length → h = wsum hs a en →
    ∃ en2 h2, shrinkBack hs maxh en h = some (en2, h2) ∧
      a ≤ en2 ∧ en2 ≤ en ∧ h2 = wsum hs a en2 ∧ h2 ≤ maxh := by
  intro en
  induction en with
  | zero =>
    intro h ha hen hsum
    have h0 : h = 0 := by
      rw [hsum, wsum_of_le (by omega)]
    refine ⟨0, h, ?_, ha, le_refl 0, hsum, by omega⟩
    simp [shrinkBack, h0]
  | succ e ih =>
    intro h ha hen hsum
    by_cases hcond : h ≤ maxh
    · exact ⟨e + 1, h, by simp [shrinkBack, hcond], ha, le_refl _, hsum, hcond⟩
    · have hpos : 0 < wsum hs a (e + 1) := by omega
      have hlt := wsum_pos hpos
      have hae : a ≤ e := by omega
      have hsum2 : h - hs.getD e 0 = wsum hs a e := by
        rw [hsum, wsum_succ_top hae]
        omega
      obtain ⟨en2, h2, heq, i1, i2, i3, i4⟩ :=
        ih (h - hs.getD e 0) hae (by omega) hsum2
      refine ⟨en2, h2, ?_, i1, by omega, i3, i4⟩
      simp only [shrinkBack, if_neg hcond, if_pos (show e < hs.length by omega)]
      exact heq

theorem shrinkBack_lt (hs : List Nat) (maxh a : Nat)
    (hall : ∀ x ∈ hs, x ≤ maxh) :
    ∀ (en h en2 h2 : Nat), a < en → en ≤ hs.length → h = wsum hs a en →
    shrinkBack hs maxh en h = some (en2, h2) → a < en2 := by
  intro en
  induction en with
  | zero =>
    intro h en2 h2 ha
    omega
  | succ e ih =>
    intro h en2 h2 ha hen hsum heq
    by_cases hcond : h ≤ maxh
    · simp [shrinkBack, hcond] at heq
      omega
    · by_cases hae : a = e
      · exfalso
        have : h = hs.getD e 0 := by
          rw [hsum, hae, wsum_succ_bot (by omega), wsum_of_le (by omega)]
          omega
        have := getD_le_of_all hall e
        omega
      · have hae2 : a < e := by omega
        have hsum2 : h - hs.getD e 0 = wsum hs a e := by
          rw [hsum, wsum_succ_top (by omega)]
          omega
        simp only [shrinkBack, if_neg hcond,
          if_pos (show e < hs.length by omega)] at heq
        exact ih (h - hs.getD e 0) en2 h2 hae2 (by omega) hsum2 heq

theorem extendDownAux_spec (hs : List Nat) (maxh sel : Nat)
    (hsel : sel < hs.length) :
    ∀ (k st en h : Nat), sel + 1 ≤ en + k → st ≤ en → en ≤ hs.length →
    h = wsum hs st en → h ≤ maxh →
    ∃ st2 en2 h2, extendDownAux hs maxh sel k st en h = some (st2, en2, h2) ∧
      st ≤ st2 ∧ st2 ≤ en2 ∧ en2 ≤ hs.length ∧ sel < en2 ∧
      h2 = wsum hs st2 en2 ∧ h2 ≤ maxh := by
  intro k
  induction k with
  | zero =>
    intro st en h hk hse hen hsum hle
    have hlt : sel < en := by omega
    exact ⟨st, en, h, by simp [extendDownAux, hlt], le_refl st, hse, hen, hlt,
      hsum, hle⟩
  | succ k ih =>
    intro st en h hk hse hen hsum hle
    by_cases hlt : sel < en
    · exact ⟨st, en, h, by simp [extendDownAux, hlt], le_refl st, hse, hen, hlt,
        hsum, hle⟩
    · have henlt : en < hs.length := by omega
      have hsum2 : h + hs.getD en 0 = wsum hs st (en + 1) := by
        rw [wsum_succ_top hse, hsum]
      obtain ⟨st2, h2, heqSF, j1, j2, j3, j4⟩ :=
        shrinkFront_spec hs maxh (en + 1) st (h + hs.getD en 0) (by omega)
          (by omega) hsum2
      obtain ⟨st3, en3, h3, heqED, i1, i2, i3, i4, i5, i6⟩ :=
        ih st2 (en + 1) h2 (by omega) j2 (by omega) j3 j4
      refine ⟨st3, en3, h3, ?_, by omega, i2, i3, i4, i5, i6⟩
      simp only [extendDownAux, if_neg hlt, if_pos henlt, heqSF]
      exact heqED

theorem extendDown_spec (hs : List Nat) (maxh sel st en h : Nat)
    (hsel : sel < hs.length) (hse : st ≤ en) (hen : en ≤ hs.length)
    (hsum : h = wsum hs st en) (hle : h ≤ maxh) :
    ∃ st2 en2 h2, extendDown hs maxh sel st en h = some (st2, en2, h2) ∧
      st ≤ st2 ∧ st2 ≤ en2 ∧ en2 ≤ hs.length ∧ sel < en2 ∧
      h2 = wsum hs st2 en2 ∧ h2 ≤ maxh :=
  extendDownAux_spec hs maxh sel hsel (sel + 1 - en) st en h (by omega) hse hen
    hsum hle

theorem extendUp_spec (hs : List Nat) (maxh sel : Nat) :
    ∀ (st en h : Nat), st ≤ en → en ≤ hs.length → h = wsum hs st en →
    ∃ st2 en2, extendUp hs maxh sel st en h = some (st2, en2) ∧
      st2 ≤ sel ∧ min sel st ≤ st2 ∧ en2 ≤ en := by
  intro st
  induction st with
  | zero =>
    intro en h hse hen hsum
    exact ⟨0, en, by simp [extendUp], by omega, by omega, le_refl en⟩
  | succ st ih =>
    intro en h hse hen hsum
    by_cases hlt : sel < st + 1
    · have hstlen : st < hs.length := by omega
      have hsum2 : h + hs.getD st 0 = wsum hs st en := by
        rw [hsum, wsum_succ_bot (show st < en by omega)]
        omega
      obtain ⟨en2, h2, heqSB, j1, j2, j3, j4⟩ :=
        shrinkBack_spec hs maxh st en (h + hs.getD st 0) (by omega) hen hsum2
      obtain ⟨st3, en3, heqEU, i1, i2, i3⟩ := ih en2 h2 j1 (by omega) j3
      refine ⟨st3, en3, ?_, i1, by omega, by omega⟩
      simp only [extendUp, if_pos hlt, if_pos hstlen, heqSB]
      exact heqEU
    · exact ⟨st + 1, en, by simp [extendUp, hlt], by omega, by omega, le_refl en⟩

theorem extendUp_lt (hs : List Nat) (maxh sel : Nat)
    (hall : ∀ x ∈ hs, x ≤ maxh) :
    ∀ (st en h st2 en2 : Nat), sel < en → st ≤ en → en ≤ hs.length →
    h = wsum hs st en → extendUp hs maxh sel st en h = some (st2, en2) →
    sel < en2 := by
  intro st
  induction st with
  | zero =>
    intro en h st2 en2 hsen hse hen hsum heq
    simp [extendUp] at heq
    omega
  | succ st ih =>
    intro en h st2 en2 hsen hse hen hsum heq
    by_cases hlt : sel < st + 1
    · have hstlen : st < hs.length := by omega
      have hsum2 : h + hs.getD st 0 = wsum hs st en := by
        rw [hsum, wsum_succ_bot (show st < en by omega)]
        omega
      obtain ⟨en2', h2, heqSB, j1, j2, j3, j4⟩ :=
        shrinkBack_spec hs maxh st en (h + hs.getD st 0) (by omega) hen hsum2
      have hlt2 : st < en2' :=
        shrinkBack_lt hs maxh st hall en (h + hs.getD st 0) en2' h2
          (by omega) hen hsum2 heqSB
      simp only [extendUp, if_pos hlt, if_pos hstlen, heqSB] at heq
      exact ih en2' h2 st2 en2 (by omega) (by omega) (by omega) j3 heq
    · simp [extendUp, hlt] at heq
      omega

theorem boundsH_spec (hs : List Nat) (selected : Option Nat) (offset maxh : Nat)
    (hne : hs.length ≠ 0) :
    ∃ st en, getItemsBoundsH hs selected offset maxh = some (st, en) ∧
      st ≤ min (selected.getD 0) (hs.length - 1) ∧
      min (min (selected.getD 0) (hs.length - 1)) (min offset (hs.length - 1)) ≤ st ∧
      en ≤ hs.length ∧
      ((∀ x ∈ hs, x ≤ maxh) → min (selected.getD 0) (hs.length - 1) < en) := by
  set off := min offset (hs.length - 1) with hoff
  set sel := min (selected.getD 0) (hs.length - 1) with hsel
  obtain ⟨hg1, hg2, hg3, hg4⟩ :=
    grow_spec maxh hs (hs.length - off) off 0 (by omega) (by omega) (by omega)
  set g := grow maxh (hs.drop off) off 0 with hg
  obtain ⟨st1, en1, h1, hED, e1, e2, e3, e4, e5, e6⟩ :=
    extendDown_spec hs maxh sel off g.1 g.2 (by omega) hg1 hg2 (by omega) hg4
  obtain ⟨st2, en2, hEU, u1, u2, u3⟩ :=
    extendUp_spec hs maxh sel st1 en1 h1 e2 e3 e5
  refine ⟨st2, en2, ?_, u1, by omega, by omega, ?_⟩
  · simp only [getItemsBoundsH, if_neg hne, ← hoff, ← hsel, ← hg, hED]
    exact hEU
  · intro hall
    exact extendUp_lt hs maxh sel hall st1 en1 h1 st2 en2 e4 e2 e3 e5 hEU

/-- C7: `get_items_bounds` terminates (and, being a function of its inputs,
is deterministic) for every non-empty item sequence, every optional
selected index, every offset, and every `max_height` — including when some
item's height exceeds `max_height`: the computation always completes with a
result, never hitting a panicking index access (`none`). -/
theorem claim_C7 (items : List FuzzyListItem) (selected : Option Nat)
    (offset maxh : Nat) (hne : items ≠ []) :
    ∃ st en, getItemsBounds items selected offset maxh = some (st, en) := by
  have hlen : (items.map FuzzyListItem.height).length ≠ 0 := by
    simpa using hne
  obtain ⟨st, en, heq, _, _, _, _⟩ :=
    boundsH_spec (items.map FuzzyListItem.height) selected offset maxh hlen
  exact ⟨st, en, heq⟩

/-- Witness for C7: a single item of height 2 with `max_height = 1` (taller
than the budget), an out-of-range selection and offset. -/
theorem claim_C7_witness :
    ∃ st en,
      getItemsBounds [⟨[[], []], TuiStyle.mkDefault, TuiStyle.redFg⟩]
        (some 5) 7 1 = some (st, en) :=
  claim_C7 [⟨[[], []], TuiStyle.mkDefault, TuiStyle.redFg⟩] (some 5) 7 1
    (by decide)

/-- C1: for every non-empty item sequence, every valid selected index,
every offset, and every `max_height` at least the tallest item's height,
`get_items_bounds(selected, offset, max_height)` returns `(start, end)`
with `start ≤ selected < end`, `end ≤ len(items)`, and `start ≥ 0`. -/
theorem claim_C1 (items : List FuzzyListItem) (sel offset maxh : Nat)
    (hne : items ≠ []) (hsel : sel < items.length)
    (htall : ∀ it ∈ items, it.height ≤ maxh) :
    ∃ st en, getItemsBounds items (some sel) offset maxh = some (st, en) ∧
      st ≤ sel ∧ sel < en ∧ en ≤ items.length ∧ 0 ≤ st := by
  have hlen : (items.map FuzzyListItem.height).length = items.length :=
    List.length_map items FuzzyListItem.height
  obtain ⟨st, en, heq, hub, _, henn, hlt⟩ :=
    boundsH_spec (items.map FuzzyListItem.height) (some sel) offset maxh
      (by omega)
  have hall : ∀ x ∈ items.map FuzzyListItem.height, x ≤ maxh := by
    intro x hx
    rw [List.mem_map] at hx
    obtain ⟨it, hit, hxeq⟩ := hx
    rw [← hxeq]
    exact htall it hit
  have hclamp : min ((some sel).getD 0)
      ((items.map FuzzyListItem.height).length - 1) = sel := by
    simp only [Option.getD_some]
    omega
  rw [hclamp] at hub
  have := hlt hall
  rw [hclamp] at this
  exact ⟨st, en, heq, hub, this, by omega, by omega⟩

/-- Witness for C1: three one-line items, `selected = 1`, `offset = 0`,
`max_height = 1`. -/
theorem claim_C1_witness :
    ∃ st en,
      getItemsBounds [demoItem, demoItem, demoItem] (some 1) 0 1 =
        some (st, en) ∧ st ≤ 1 ∧ 1 < en ∧ en ≤ 3 ∧ 0 ≤ st := by
  have h := claim_C1 [demoItem, demoItem, demoItem] 1 0 1 (by decide)
    (by decide) (by decide)
  simpa using h

/-- C8: for five items of height 1 each, `max_height = 3`, `offset = 0`,
`selected = 4`, the window computation returns `(2, 5)`, and rendering in
that configuration stores `2` — the returned `start` — as the new offset
(`state.offset = start`). -/
theorem claim_C8 :
    getItemsBounds [demoItem, demoItem, demoItem, demoItem, demoItem]
      (some 4) 0 3 = some (2, 5) ∧
    applyRender
      (select (withItems [demoItem, demoItem, demoItem, demoItem, demoItem])
        (some 4)) 3 =
      some ⟨2, some 4, none,
        [demoItem, demoItem, demoItem, demoItem, demoItem], []⟩ := by
  decide

theorem incStep_post (hs : List Nat) (maxh : Nat) (p q : Nat × Nat)
    (hne : hs.length ≠ 0) (heq : incStep hs maxh p = some q) :
    q.2 ≤ min q.1 (hs.length - 1) := by
  obtain ⟨st, en, hb, hub, _, _, _⟩ :=
    boundsH_spec hs (some (p.1 + 1)) p.2 maxh hne
  simp only [incStep, hb] at heq
  cases heq
  simpa using hub

theorem incStep_mono (hs : List Nat) (maxh : Nat) (q r : Nat × Nat)
    (hne : hs.length ≠ 0) (hq : q.2 ≤ min q.1 (hs.length - 1))
    (heq : incStep hs maxh q = some r) : q.2 ≤ r.2 := by
  obtain ⟨st, en, hb, _, hlb, _, _⟩ :=
    boundsH_spec hs (some (q.1 + 1)) q.2 maxh hne
  simp only [incStep, hb] at heq
  cases heq
  simp only [Option.getD_some] at hlb
  simp only
  omega

/-- C9: for every non-empty item sequence and every `max_height` at least
the total height of any two consecutive items, the `start` bound stored as
the new offset is monotonically non-decreasing across a sequence of
repeated `increment_selected()` calls, each followed by a window
computation that stores the returned `start` as the offset: from step 1 on
(once the offset is itself a stored `start`), consecutive stored offsets
never decrease. -/
theorem claim_C9 (items : List FuzzyListItem) (maxh : Nat)
    (hne : items ≠ [])
    (hpair : ∀ x ∈ (items.map FuzzyListItem.height).zip
      (items.map FuzzyListItem.height).tail, x.1 + x.2 ≤ maxh)
    (p q r : Nat × Nat) (k : Nat)
    (hq : incIter (items.map FuzzyListItem.height) maxh p (k + 1) = some q)
    (hr : incIter (items.map FuzzyListItem.height) maxh p (k + 2) = some r) :
    q.2 ≤ r.2 := by
  have hlen : (items.map FuzzyListItem.height).length ≠ 0 := by
    simpa using hne
  have hstep : incStep (items.map FuzzyListItem.height) maxh q = some r := by
    have : incIter (items.map FuzzyListItem.height) maxh p (k + 2) =
        match incIter (items.map FuzzyListItem.height) maxh p (k + 1) with
        | none => none
        | some q0 => incStep (items.map FuzzyListItem.height) maxh q0 := rfl
    rw [this, hq] at hr
    exact hr
  have hpost : q.2 ≤ min q.1 ((items.map FuzzyListItem.height).length - 1) := by
    have hstep1 : incIter (items.map FuzzyListItem.height) maxh p (k + 1) =
        match incIter (items.map FuzzyListItem.height) maxh p k with
        | none => none
        | some q0 => incStep (items.map FuzzyListItem.height) maxh q0 := rfl
    rw [hstep1] at hq
    cases hk : incIter (items.map FuzzyListItem.height) maxh p k with
    | none =>
      rw [hk] at hq
      cases hq
    | some q0 =>
      rw [hk] at hq
      exact incStep_post (items.map FuzzyListItem.height) maxh q0 q hlen hq
  exact incStep_mono (items.map FuzzyListItem.height) maxh q r hlen hpost hstep

/-- Witness for C9: three one-line items, `max_height = 2` (the height of
any two consecutive items), starting from `(selected, offset) = (0, 0)`. -/
theorem claim_C9_witness : (0 : Nat) ≤ 1 ∧ (1 : Nat) ≤ 1 :=
  ⟨claim_C9 [demoItem, demoItem, demoItem] 2 (by decide) (by decide)
      (0, 0) (1, 0) (2, 1) 0 (by decide) (by decide),
    le_refl 1⟩

theorem setFilter_items (m : Matcher) (s : FuzzyListState)
    (f0 : Option (List Char)) (s1 : FuzzyListState)
    (h : setFilter m s f0 = some s1) : s1.items = s.items := by
  simp only [setFilter] at h
  split at h
  · split at h
    · cases h
    · split at h
      · cases h
      · cases h
        rfl
  · cases h
    rfl

theorem setFilter_filter_eq (m : Matcher) (s : FuzzyListState)
    (f0 : Option (List Char)) (s1 : FuzzyListState)
    (h : setFilter m s f0 = some s1) : s1.filter = normFilter f0 := by
  simp only [setFilter] at h
  split at h
  · split at h
    · cases h
    · split at h
      · cases h
      · cases h
        simpa using (by assumption : normFilter f0 = some _)
  · cases h
    rfl

/-- C2: for every collection and every non-empty query `q`, calling
`set_filter(Some(q))` and then `set_filter(None)` restores `get_items()` to
the full original collection — the very same item list (contents, order and
styling all equal), since the rewrite only ever touched derived clones. -/
theorem claim_C2 (m : Matcher) (s : FuzzyListState) (q : List Char)
    (hq : q ≠ []) (s1 : FuzzyListState)
    (h1 : setFilter m s (some q) = some s1) :
    ∃ s2, setFilter m s1 none = some s2 ∧ getItems s2 = s.items ∧
      s2.items = s.items := by
  have hitems := setFilter_items m s (some q) s1 h1
  have hfil := setFilter_filter_eq m s (some q) s1 h1
  have hnorm : normFilter (some q) = some q := by
    simp [normFilter, hq]
  rw [hnorm] at hfil
  refine ⟨{ s1 with filtered := [], filter := none }, ?_, ?_, hitems⟩
  · simp [setFilter, normFilter, shouldFilterB, hfil]
  · simp [getItems, hitems]

/-- Witness for C2: a one-item collection, the query "a", and a matcher
that reports no match anywhere. -/
theorem claim_C2_witness :
    ∃ s2, setFilter (fun _ _ => none)
        (⟨0, none, some ['a'], [demoItem], []⟩ : FuzzyListState) none =
          some s2 ∧
      getItems s2 = [demoItem] ∧ s2.items = [demoItem] :=
  claim_C2 (fun _ _ => none) (withItems [demoItem]) ['a'] (by decide)
    ⟨0, none, some ['a'], [demoItem], []⟩ (by decide)

/-- C6: calling `set_filter` twice in a row with the same argument is
idempotent: the second call returns the state of the first call unchanged —
same `FilteredView` (`filtered`), same `selected`, same `offset`. -/
theorem claim_C6 (m : Matcher) (s : FuzzyListState) (f0 : Option (List Char))
    (s1 : FuzzyListState) (h1 : setFilter m s f0 = some s1) :
    setFilter m s1 f0 = some s1 := by
  have hfil := setFilter_filter_eq m s f0 s1 h1
  cases hn : normFilter f0 with
  | none =>
    rw [hn] at hfil
    cases s1
    simp only at hfil
    subst hfil
    simp [setFilter, hn, shouldFilterB]
  | some q =>
    rw [hn] at hfil
    cases s1
    simp only at hfil
    subst hfil
    simp [setFilter, hn, shouldFilterB]

/-- Witness for C6: second `set_filter(Some("a"))` call on the state the
first call produced. -/
theorem claim_C6_witness :
    setFilter (fun _ _ => none)
      (⟨0, none, some ['a'], [demoItem], []⟩ : FuzzyListState) (some ['a']) =
      some ⟨0, none, some ['a'], [demoItem], []⟩ :=
  claim_C6 (fun _ _ => none) (withItems [demoItem]) (some ['a'])
    ⟨0, none, some ['a'], [demoItem], []⟩ (by decide)

/-- Counterexample to C3 as stated: a reachable state with `offset = 1`
and `selected = Some 0` (so the invariant holds) on which a recomputing
`set_filter` leaves `selected = None` with `offset = 1 ≠ 0` — the
recomputation assigns `self.selected = None` directly instead of going
through `select`, so the offset is not reset. -/
theorem claim_C3_counterexample :
    applyRender (select (withItems [demoItem, demoItem]) (some 1)) 1 =
      some ⟨1, some 1, none, [demoItem, demoItem], []⟩ ∧
    selectionInvariant
      (select (⟨1, some 1, none, [demoItem, demoItem], []⟩ : FuzzyListState)
        (some 0)) ∧
    setFilter (fun _ _ => none)
      (select (⟨1, some 1, none, [demoItem, demoItem], []⟩ : FuzzyListState)
        (some 0)) (some ['x']) =
      some ⟨1, none, some ['x'], [demoItem, demoItem], []⟩ ∧
    (⟨1, none, some ['x'], [demoItem, demoItem], []⟩ :
      FuzzyListState).selected = none ∧
    (⟨1, none, some ['x'], [demoItem, demoItem], []⟩ :
      FuzzyListState).offset ≠ 0 := by
  decide

/-- C3 (amended): the invariant `selected = None ⇒ offset = 0` is
preserved by `with_items`, `select`, `increment_selected` and
`decrement_selected`, and by any `set_filter` call that does not recompute
the filtered view; a recomputing `set_filter` instead sets `selected` to
`None` while leaving `offset` unchanged (so it preserves the invariant
only when the offset was already 0). -/
theorem claim_C3_amended (s s1 : FuzzyListState) (m : Matcher)
    (f0 : Option (List Char)) (i : Option Nat) (l : List FuzzyListItem)
    (hinv : selectionInvariant s) (hsf : setFilter m s f0 = some s1) :
    selectionInvariant (withItems l) ∧
    selectionInvariant (select s i) ∧
    selectionInvariant (incrementSelected s) ∧
    selectionInvariant (decrementSelected s) ∧
    (shouldFilterB (normFilter f0) s.filter = false → selectionInvariant s1) ∧
    (shouldFilterB (normFilter f0) s.filter = true →
      s1.selected = none ∧ s1.offset = s.offset) := by
  refine ⟨?_, ?_, ?_, ?_, ?_, ?_⟩
  · intro _
    rfl
  · intro hsel
    cases i with
    | none => rfl
    | some v => simp [select] at hsel
  · intro hsel
    cases hs : s.selected <;> simp [incrementSelected, hs, select] at hsel
  · intro hsel
    cases hs : s.selected with
    | none => simp [decrementSelected, hs, select]
    | some v => simp [decrementSelected, hs, select] at hsel
  · intro hflag hsel
    simp only [setFilter, hflag, if_neg Bool.false_ne_true] at hsf
    cases hsf
    exact hinv hsel
  · intro hflag
    simp only [setFilter] at hsf
    simp only [hflag, if_true] at hsf
    cases hn : normFilter f0 with
    | none =>
      rw [hn] at hsf
      cases hsf
    | some q =>
      rw [hn] at hsf
      simp only at hsf
      cases hfi : filterItems m q s.items with
      | none =>
        rw [hfi] at hsf
        cases hsf
      | some nf =>
        rw [hfi] at hsf
        simp only at hsf
        cases hsf
        exact ⟨rfl, rfl⟩

/-- Witness for C3 (amended), instantiated on a one-item collection with a
filter-activating `set_filter` call. -/
theorem claim_C3_amended_witness :
    selectionInvariant (withItems [demoItem]) ∧
    selectionInvariant (select (withItems [demoItem]) (some 0)) ∧
    selectionInvariant (incrementSelected (withItems [demoItem])) ∧
    selectionInvariant (decrementSelected (withItems [demoItem])) ∧
    (shouldFilterB (normFilter (some ['x'])) (withItems [demoItem]).filter =
        false →
      selectionInvariant
        (⟨0, none, some ['x'], [demoItem], []⟩ : FuzzyListState)) ∧
    (shouldFilterB (normFilter (some ['x'])) (withItems [demoItem]).filter =
        true →
      (⟨0, none, some ['x'], [demoItem], []⟩ :
        FuzzyListState).selected = none ∧
      (⟨0, none, some ['x'], [demoItem], []⟩ :
        FuzzyListState).offset = (withItems [demoItem]).offset) :=
  claim_C3_amended (withItems [demoItem])
    ⟨0, none, some ['x'], [demoItem], []⟩ (fun _ _ => none) (some ['x'])
    (some 0) [demoItem] (by decide) (by decide)

/-- Counterexample to C5 as stated: a non-matching segment with a
non-default style is NOT left unchanged — the rewrite rebuilds it with
`Span::raw`, which resets the style to the default. -/
theorem claim_C5_counterexample :
    rewriteSpan (fun _ _ => none) TuiStyle.redFg ['q']
        ⟨['a'], TuiStyle.redFg⟩ =
      some ([⟨['a'], TuiStyle.mkDefault⟩], false) ∧
    TuiStyle.mkDefault ≠ TuiStyle.redFg := by
  decide

/-- C5 (amended): on a segment the matcher reports as non-matching, the
rewrite keeps the segment's text unchanged but replaces its style with the
default (`Span::raw`) style; the segment passes through entirely unchanged
exactly when its original style was already the default. -/
theorem claim_C5_amended (m : Matcher) (fstyle st : TuiStyle)
    (filter content : List Char) (hm : m content filter = none) :
    rewriteSpan m fstyle filter ⟨content, st⟩ =
      some ([⟨content, TuiStyle.mkDefault⟩], false) ∧
    (rewriteSpan m fstyle filter ⟨content, st⟩ =
        some ([⟨content, st⟩], false) ↔ st = TuiStyle.mkDefault) := by
  have h1 : rewriteSpan m fstyle filter ⟨content, st⟩ =
      some ([⟨content, TuiStyle.mkDefault⟩], false) := by
    simp [rewriteSpan, hm, TuiSpan.raw]
  refine ⟨h1, ?_⟩
  rw [h1]
  constructor
  · intro h2
    have := Option.some.inj h2
    have := (Prod.mk.injEq _ _ _ _).mp this
    have hsp : (⟨content, TuiStyle.mkDefault⟩ : TuiSpan) = ⟨content, st⟩ := by
      have := this.1
      simpa using this
    have := (TuiSpan.mk.injEq _ _ _ _).mp hsp
    exact this.2.symm
  · intro h2
    rw [h2]

/-- Witness for C5 (amended): the matcher that never matches, on a red
one-character segment. -/
theorem claim_C5_amended_witness :
    rewriteSpan (fun _ _ => none) TuiStyle.redFg ['q']
        ⟨['a'], TuiStyle.redFg⟩ =
      some ([⟨['a'], TuiStyle.mkDefault⟩], false) ∧
    (rewriteSpan (fun _ _ => none) TuiStyle.redFg ['q']
        ⟨['a'], TuiStyle.redFg⟩ =
      some ([⟨['a'], TuiStyle.redFg⟩], false) ↔
        TuiStyle.redFg = TuiStyle.mkDefault) :=
  claim_C5_amended (fun _ _ => none) TuiStyle.redFg TuiStyle.redFg ['q'] ['a']
    rfl

/-- Counterexample to C4 as stated: a matcher reporting a match at index 0
for a query ("abc") longer than the segment ("ab") drives the rewrite into
out-of-bounds slicing (`&content[0..3]` on a 2-byte string panics); the
index is not clamped. -/
theorem claim_C4_counterexample :
    rewriteSpan (fun _ _ => some (0, [0])) TuiStyle.redFg ['a', 'b', 'c']
      ⟨['a', 'b'], TuiStyle.mkDefault⟩ = none := by
  decide

/-- C4 (amended): whenever the query is no longer than the segment, the
match-highlighting rewrite performs only in-bounds slicing and never
crashes, for EVERY index the matcher reports — an index with
`index + query length` exceeding the segment's length falls into the final
branch, which slices the last query-length run (a defensive clamp).  A
query longer than the segment, however, escapes the clamp and panics. -/
theorem claim_C4_amended (m : Matcher) (fstyle st : TuiStyle)
    (content filter : List Char) (score : Int) (idxs : List Nat) (i : Nat)
    (hm : m content filter = some (score, idxs)) (hh : idxs.head? = some i)
    (hlen : filter.length ≤ content.length) :
    (rewriteSpan m fstyle filter ⟨content, st⟩).isSome = true := by
  have hw : wsub content.length filter.length =
      content.length - filter.length := by
    simp [wsub, hlen]
  simp only [rewriteSpan, hm, hh]
  by_cases h1 : i > 0 ∧ i < wsub content.length filter.length
  · rw [if_pos h1]
    rw [hw] at h1
    rw [strSlice, if_pos (by omega)]
    rw [strSlice, if_pos (by omega)]
    rw [strSlice, if_pos (by omega)]
    rfl
  · rw [if_neg h1]
    by_cases h2 : i = 0
    · rw [if_pos h2]
      rw [strSlice, if_pos (by omega)]
      rw [strSlice, if_pos (by omega)]
      rfl
    · rw [if_neg h2, hw]
      rw [strSlice, if_pos (by omega)]
      rw [strSlice, if_pos (by omega)]
      rfl

/-- Witness for C4 (amended): a matcher reporting the out-of-range index 5
on the 4-character segment "abcd" with the 2-character query "ab". -/
theorem claim_C4_amended_witness :
    (rewriteSpan (fun _ _ => some (0, [5])) TuiStyle.redFg ['a', 'b']
      ⟨['a', 'b', 'c', 'd'], TuiStyle.mkDefault⟩).isSome = true :=
  claim_C4_amended (fun _ _ => some (0, [5])) TuiStyle.redFg
    TuiStyle.mkDefault ['a', 'b', 'c', 'd'] ['a', 'b'] 0 [5] 5 rfl rfl
    (by decide)

/-- C10: for every segment the matcher reports as matching, with a
non-empty index list whose first reported position is within bounds
(`index + query length ≤ segment length`), the rewrite produces exactly one
span carrying the item's `filter_style` — every other produced span carries
the default (raw) style — and that span's text is a contiguous run of the
original segment whose length equals the query's length (the segment's
text is split, not altered): a non-contiguous fuzzy match is highlighted as
a single contiguous query-length run. -/
theorem claim_C10 (m : Matcher) (fstyle st : TuiStyle)
    (content filter : List Char) (score : Int) (idxs : List Nat) (i : Nat)
    (hm : m content filter = some (score, idxs)) (hh : idxs.head? = some i)
    (hin : i + filter.length ≤ content.length) :
    ∃ pre mid suf,
      rewriteSpan m fstyle filter ⟨content, st⟩ =
        some (pre ++ ⟨mid, fstyle⟩ :: suf, true) ∧
      (∀ x ∈ pre, x.style = TuiStyle.mkDefault) ∧
      (∀ x ∈ suf, x.style = TuiStyle.mkDefault) ∧
      mid.length = filter.length ∧
      (pre.map TuiSpan.content).flatten ++ mid ++ (suf.map TuiSpan.content).flatten
        = content := by
  have hflen : filter.length ≤ content.length := by omega
  have hw : wsub content.length filter.length =
      content.length - filter.length := by
    simp [wsub, hflen]
  simp only [rewriteSpan, hm, hh]
  by_cases h1 : i > 0 ∧ i < wsub content.length filter.length
  · rw [if_pos h1]
    rw [hw] at h1
    rw [strSlice, if_pos (by omega), strSlice, if_pos (by omega),
      strSlice, if_pos (by omega)]
    simp only [List.drop_zero, Nat.sub_zero, Nat.add_sub_cancel_left]
    refine ⟨[TuiSpan.raw (content.take i)],
      (content.drop i).take filter.length,
      [TuiSpan.raw ((content.drop (i + filter.length)).take
        (content.length - (i + filter.length)))], ?_, ?_, ?_, ?_, ?_⟩
    · simp [TuiSpan.raw, TuiSpan.styled]
    · simp [TuiSpan.raw]
    · simp [TuiSpan.raw]
    · rw [List.length_take, List.length_drop]
      omega
    · have h3 : (content.drop (i + filter.length)).take
          (content.length - (i + filter.length)) =
          content.drop (i + filter.length) := by
        apply List.take_of_length_le
        rw [List.length_drop]
      rw [h3]
      have h4 : (content.drop i).take filter.length ++
          content.drop (i + filter.length) = content.drop i := by
        have h5 := List.take_append_drop filter.length (content.drop i)
        rw [List.drop_drop] at h5
        simpa [Nat.add_comm] using h5
      simp only [TuiSpan.raw, List.map_cons, List.map_nil, List.flatten_cons,
        List.flatten_nil, List.append_nil, List.nil_append, List.append_assoc]
      rw [h4, List.take_append_drop]
  · rw [if_neg h1]
    by_cases h2 : i = 0
    · rw [if_pos h2]
      rw [strSlice, if_pos (by omega), strSlice, if_pos (by omega)]
      simp only [List.drop_zero, Nat.sub_zero]
      refine ⟨[], content.take filter.length,
        [TuiSpan.raw ((content.drop filter.length).take
          (content.length - filter.length))], ?_, ?_, ?_, ?_, ?_⟩
      · simp [TuiSpan.raw, TuiSpan.styled]
      · simp
      · simp [TuiSpan.raw]
      · rw [List.length_take]
        omega
      · have h3 : (content.drop filter.length).take
            (content.length - filter.length) = content.drop filter.length := by
          apply List.take_of_length_le
          rw [List.length_drop]
        rw [h3]
        simp only [TuiSpan.raw, List.map_cons, List.map_nil, List.flatten_cons,
          List.flatten_nil, List.append_nil, List.nil_append]
        rw [List.take_append_drop]
    · rw [if_neg h2, hw]
      rw [strSlice, if_pos (by omega), strSlice, if_pos (by omega)]
      simp only [List.drop_zero, Nat.sub_zero]
      refine ⟨[TuiSpan.raw (content.take
          (content.length - filter.length))],
        (content.drop (content.length - filter.length)).take
          (content.length - (content.length - filter.length)), [],
        ?_, ?_, ?_, ?_, ?_⟩
      · simp [TuiSpan.raw, TuiSpan.styled]
      · simp [TuiSpan.raw]
      · simp
      · rw [List.length_take, List.length_drop]
        omega
      · have h3 : (content.drop (content.length - filter.length)).take
            (content.length - (content.length - filter.length)) =
            content.drop (content.length - filter.length) := by
          apply List.take_of_length_le
          rw [List.length_drop]
        rw [h3]
        simp only [TuiSpan.raw, List.map_cons, List.map_nil, List.flatten_cons,
          List.flatten_nil, List.append_nil, List.nil_append]
        rw [List.take_append_drop]

/-- Witness for C10: matcher reporting index 1 for query "bc" on segment
"abcd". -/
theorem claim_C10_witness :
    ∃ pre mid suf,
      rewriteSpan (fun _ _ => some (0, [1])) TuiStyle.redFg ['b', 'c']
        ⟨['a', 'b', 'c', 'd'], TuiStyle.mkDefault⟩ =
        some (pre ++ ⟨mid, TuiStyle.redFg⟩ :: suf, true) ∧
      (∀ x ∈ pre, x.style = TuiStyle.mkDefault) ∧
      (∀ x ∈ suf, x.style = TuiStyle.mkDefault) ∧
      mid.length = (['b', 'c'] : List Char).length ∧
      (pre.map TuiSpan.content).flatten ++ mid ++ (suf.map TuiSpan.content).flatten
        = ['a', 'b', 'c', 'd'] :=
  claim_C10 (fun _ _ => some (0, [1])) TuiStyle.redFg TuiStyle.mkDefault
    ['a', 'b', 'c', 'd'] ['b', 'c'] 0 [1] 1 rfl rfl (by decide)
